import Mathlib

/-!
Verification development for the hillmaker `bydatetime` occupancy engine
(`src/hillmaker/bydatetime.py`).

The engine is shallowly embedded here:

* timestamps are integers counting seconds from an (arbitrary) epoch that
  falls on a minute-0/second-0 hour boundary, so the pandas `Timestamp`
  accessors `.minute` and `.second` are the obvious modular arithmetic;
* numpy float arrays are `List ℚ` (the spec's invariants hold "up to
  floating-point rounding"; over ℚ they are exact);
* Python exceptions are the `PyErr` error type of an `Except` result;
* numpy slice assignment (with Python's negative-index and clamping rules,
  and numpy's length-1 broadcasting) is modelled exactly by `np_slice_add`;
* the helper module `hmlib` is not part of the sources; its two functions
  used by the engine core (`bin_of_span`, `stoprec_analysis_rltnshp`) are
  modelled from the spec (§4.1 and §4.3) and marked as such.
-/

namespace Hillmaker

/-- `Timestamp.minute` for a timestamp given as seconds since an
hour-aligned epoch: the minute-of-hour, in `[0, 59]`. -/
def ts_minute (ts : Int) : Int := (ts.emod 3600).fdiv 60

/-- `Timestamp.second` for a timestamp given as seconds since an
hour-aligned epoch: the second-of-minute, in `[0, 59]`. -/
def ts_second (ts : Int) : Int := ts.emod 60

/-- Modelled from the spec: `hmlib.bin_of_span` (missing from `src/`).
"the number of whole `bin_size_minutes` intervals between `window_start`
and `timestamp`, truncating toward negative infinity" (§4.1).  Times are
in seconds, so one bin is `bin_size_minutes * 60` seconds. -/
def bin_of_span (ts window_start : Int) (bin_size_minutes : Nat) : Int :=
  (ts - window_start).fdiv ((bin_size_minutes : Int) * 60)

/-- Modelled from the spec: `hmlib.stoprec_analysis_rltnshp` (missing from
`src/`).  §4.3: five mutually exclusive classes "decided by simple
bin-range comparisons against `[0, num_bins−1]`", with `backwards`
(exit precedes entry) taking precedence so the cases are exclusive. -/
def stoprec_analysis_rltnshp (entry_bin exit_bin : Int) (num_bins : Int) : String :=
  if exit_bin < entry_bin then "backwards"
  else if 0 ≤ entry_bin ∧ exit_bin ≤ num_bins - 1 then "inner"
  else if entry_bin < 0 ∧ 0 ≤ exit_bin ∧ exit_bin ≤ num_bins - 1 then "left"
  else if 0 ≤ entry_bin ∧ entry_bin ≤ num_bins - 1 ∧ num_bins - 1 < exit_bin then "right"
  else if entry_bin < 0 ∧ num_bins - 1 < exit_bin then "outer"
  else "none"

/-- `bydatetime.in_bin_occ_frac`: fraction of the entry bin occupied.
The source computes `(in_ts.minute * 60.0 + in_ts.second) / (bin_size_minutes * 60.0)`
when `edge_bins == 1`, else `1.0`. -/
def in_bin_occ_frac (in_ts : Int) (bin_size_minutes : Nat) (edge_bins : Nat) : ℚ :=
  if edge_bins = 1 then
    ((ts_minute in_ts : ℚ) * 60 + (ts_second in_ts : ℚ)) / ((bin_size_minutes : ℚ) * 60)
  else 1

/-- `bydatetime.out_bin_occ_frac`: fraction of the exit bin occupied.
The source computes
`(bin_size_minutes * 60.0 - (out_ts.minute * 60.0 + out_ts.second)) / (bin_size_minutes * 60.0)`
when `edge_bins == 1`, else `1.0`. -/
def out_bin_occ_frac (out_ts : Int) (bin_size_minutes : Nat) (edge_bins : Nat) : ℚ :=
  if edge_bins = 1 then
    ((bin_size_minutes : ℚ) * 60 - ((ts_minute out_ts : ℚ) * 60 + (ts_second out_ts : ℚ)))
      / ((bin_size_minutes : ℚ) * 60)
  else 1

/-- `bydatetime.make_occ_incs`: the raw per-record increment sequence,
`[in_frac]`, `[in_frac, out_frac]`, or `[in_frac, 1, …, 1, out_frac]`
depending on `n_bins = out_bin - in_bin + 1`. -/
def make_occ_incs (in_bin out_bin : Int) (in_frac out_frac : ℚ) : List ℚ :=
  let n_bins := out_bin - in_bin + 1
  if n_bins > 2 then
    [in_frac] ++ List.replicate (n_bins - 2).toNat (1 : ℚ) ++ [out_frac]
  else if n_bins = 2 then [in_frac, out_frac]
  else [in_frac]

/-- Resolution of Python slice endpoints `a`, `b` against a sequence of
length `n`: a negative endpoint counts from the end; both are then clamped
into `[0, n]`. -/
def py_slice_bounds (n a b : Int) : Int × Int :=
  ((if a < 0 then max 0 (n + a) else min a n),
   (if b < 0 then max 0 (n + b) else min b n))

/-- Python slicing `xs[a:b]` (as used by the clipping code, with possibly
negative endpoints). -/
def py_slice (a b : Int) (xs : List α) : List α :=
  let ab := py_slice_bounds (xs.length : Int) a b
  (xs.drop ab.1.toNat).take (ab.2 - ab.1).toNat

/-- Python exceptions distinguished by the engine. `descriptive` is the
`Exception(f'pos {pos} occ_inc {occ_inc}...')` re-raised by `update_occ`'s
handler. -/
inductive PyErr where
  | indexError : PyErr
  | typeError : PyErr
  | valueError : PyErr
  | descriptive (pos : Int) (occ_inc : List ℚ) : PyErr
deriving DecidableEq, Repr

/-- numpy slice assignment `occ[pos:pos+len(inc)] += inc`.  The slice is
resolved by Python's rules (`py_slice_bounds`); the addition succeeds when
the resolved slice length matches `len(inc)` (elementwise add) or when
`len(inc) = 1` (numpy broadcasting); any other shape mismatch raises
`ValueError`. -/
def np_slice_add (occ : List ℚ) (pos : Int) (inc : List ℚ) : Except PyErr (List ℚ) :=
  let ab := py_slice_bounds (occ.length : Int) pos (pos + (inc.length : Int))
  let a : Nat := ab.1.toNat
  let k : Nat := (ab.2 - ab.1).toNat
  if k = inc.length then
    .ok (occ.take a ++ List.zipWith (· + ·) ((occ.drop a).take k) inc ++ occ.drop (a + k))
  else if inc.length = 1 then
    .ok (occ.take a ++ ((occ.drop a).take k).map (· + inc.headD 0) ++ occ.drop (a + k))
  else
    .error .valueError

/-- `bydatetime.update_occ`: for each record whose type is one of
`inner`/`left`/`right`/`outer`, add its increment array into `occ`
starting at its entry bin.  The slice assignment sits in a
`try/except (IndexError, TypeError)` that re-raises a descriptive
`Exception`; other exceptions (notably `ValueError`) propagate as-is. -/
def update_occ (occ : List ℚ) (entry_bin : List Int) (rec_type : List String)
    (list_of_inc_arrays : List (List ℚ)) : Except PyErr (List ℚ) :=
  (List.range entry_bin.length).foldlM (fun acc i =>
    if rec_type.getD i "" ∈ (["inner", "left", "right", "outer"] : List String) then
      let pos := entry_bin.getD i 0
      let occ_inc := list_of_inc_arrays.getD i []
      match np_slice_add acc pos occ_inc with
      | .ok acc' => .ok acc'
      | .error e =>
          if e = .indexError ∨ e = .typeError then .error (.descriptive pos occ_inc)
          else .error e
    else .ok acc) occ

/-- The per-record body of the `bydatetime.update_occ_incs` loop: clip the
increment array and shift the entry/exit bins according to the record
type.  `left`: drop the first `-in_bin` elements (`inc[bin_shift:]`) and
set the entry bin to 0; `right`: drop the last `out_bin - (num_bins-1)`
elements (`inc[:-bin_shift]`) and set the exit bin to `num_bins - 1`;
`outer`: both.  Other types leave everything unchanged. -/
def clip_one (num_bins : Int) (in_bin out_bin : Int) (inc : List ℚ) (rt : String) :
    Int × Int × List ℚ :=
  if rt = "left" then
    (0, out_bin, py_slice (-1 * in_bin) (inc.length : Int) inc)
  else if rt = "right" then
    (in_bin, num_bins - 1, py_slice 0 (-(out_bin - (num_bins - 1))) inc)
  else if rt = "outer" then
    (0, num_bins - 1, py_slice (-1 * in_bin) (-(out_bin - (num_bins - 1))) inc)
  else (in_bin, out_bin, inc)

/-- The record-type key tallied by `update_occ_incs`: one of the six known
class strings, anything else counted as `"unknown"`. -/
def class_key (rt : String) : String :=
  if rt ∈ (["inner", "left", "right", "outer", "backwards", "none"] : List String) then rt
  else "unknown"

/-- One `rectype_counts.get(key, 0) + 1` update of the tally dict
(insertion-ordered association list, as a Python dict). -/
def tally : List (String × Nat) → String → List (String × Nat)
  | [], k => [(k, 1)]
  | p :: rest, k => if p.1 = k then (k, p.2 + 1) :: rest else p :: tally rest k

/-- `bydatetime.update_occ_incs`: walk the records, clipping the increment
arrays and entry/exit bins in place for `left`/`right`/`outer` records and
tallying record types.  The Python function mutates `in_bins`, `out_bins`
and `list_of_inc_arrays` and returns `rectype_counts`; here the three
updated arrays are returned together with the tally.  (At its call site
all four input lists have length `num_stop_recs`.) -/
def update_occ_incs (in_bins out_bins : List Int) (list_of_inc_arrays : List (List ℚ))
    (rec_types : List String) (num_bins : Int) :
    List Int × List Int × List (List ℚ) × List (String × Nat) :=
  let clipped := (List.range in_bins.length).map (fun i =>
    clip_one num_bins (in_bins.getD i 0) (out_bins.getD i 0)
      (list_of_inc_arrays.getD i []) (rec_types.getD i ""))
  (clipped.map (·.1), clipped.map (·.2.1), clipped.map (·.2.2),
   rec_types.foldl (fun cs rt => tally cs (class_key rt)) [])

/-- `np.bincount(xs, minlength=minlength).astype(np.float32)`: raises
`ValueError` on any negative value; otherwise an array of per-value counts
whose length is the larger of `minlength` and `max(xs) + 1`. -/
def np_bincount (xs : List Int) (minlength : Nat) : Except PyErr (List ℚ) :=
  if xs.any (fun x => x < 0) then .error .valueError
  else
    let len := max minlength (xs.foldl (fun m x => max m (x.toNat + 1)) 0)
    .ok ((List.range len).map (fun b : Nat => ((xs.filter (fun x => x = (b : Int))).length : ℚ)))

/-- The `(arrivals, departures, occupancy)` triple of per-bin arrays
stored for each category (the columns of the stacked matrix). -/
def OadTriple := List ℚ × List ℚ × List ℚ
deriving DecidableEq

/-- `np.column_stack((arr, dep, occ))`: succeeds only when the three
columns have equal length, else raises `ValueError`. -/
def column_stack (arr dep occ : List ℚ) : Except PyErr OadTriple :=
  if arr.length = dep.length ∧ dep.length = occ.length then .ok (arr, dep, occ)
  else .error .valueError

/-- Elementwise sum of two result triples (`total_occ_arr_dep += oad_array`). -/
def triple_add (x y : OadTriple) : OadTriple :=
  (List.zipWith (· + ·) x.1 y.1, List.zipWith (· + ·) x.2.1 y.2.1,
   List.zipWith (· + ·) x.2.2 y.2.2)

/-- `np.zeros((num_bins, 3))` as a result triple. -/
def triple_zeros (num_bins : Int) : OadTriple :=
  (List.replicate num_bins.toNat 0, List.replicate num_bins.toNat 0,
   List.replicate num_bins.toNat 0)

/-- Python dict assignment `d[k] = v` on an insertion-ordered association
list: replace in place if the key exists, else append. -/
def dict_set : List (String × α) → String → α → List (String × α)
  | [], k, v => [(k, v)]
  | p :: rest, k, v => if p.1 = k then (k, v) :: rest else p :: dict_set rest k v

/-- Python dict lookup `d.get(k)` on an insertion-ordered association list. -/
def alist_get : List (String × α) → String → Option α
  | [], _ => none
  | p :: rest, k => if p.1 = k then some p.2 else alist_get rest k

/-- `Series.unique()`: the distinct values in order of first appearance. -/
def uniques (xs : List String) : List String :=
  xs.foldl (fun acc x => if x ∈ acc then acc else acc ++ [x]) []

/-- One row of `stops_df`: the entry timestamp (`infield`), the exit
timestamp (`outfield`) — both as seconds since an hour-aligned epoch —
and the (single) category column's value. -/
structure StopRec where
  intime : Int
  outtime : Int
  cat : String
deriving DecidableEq, Repr

/-- `num_bins = hmlib.bin_of_span(end_analysis, start_analysis, bin_size_minutes) + 1`. -/
def num_bins_calc (end_analysis start_analysis : Int) (bin_size_minutes : Nat) : Int :=
  bin_of_span end_analysis start_analysis bin_size_minutes + 1

/-- The effective stops frame: with no category field the source appends a
fake category column whose every value is `'total'` (the records' own
category column is then never consulted). -/
def effective_stops (stops : List StopRec) (has_catfield : Bool) : List StopRec :=
  if has_catfield then stops else stops.map (fun r => { r with cat := "total" })

/-- The category list of the run: unique values of the category column in
order of first appearance, minus any excluded categories. -/
def categories_of (stops : List StopRec) (has_catfield : Bool)
    (cat_to_exclude : Option (List String)) : List String :=
  let cats0 := uniques ((effective_stops stops has_catfield).map (·.cat))
  match cat_to_exclude with
  | some excl => cats0.filter (fun c => c ∉ excl)
  | none => cats0

/-- `stops_df` after the `isin(categories)` filter (the frame the per-cat
loop and the fraction `apply` calls read). -/
def filtered_stops (stops : List StopRec) (has_catfield : Bool)
    (cat_to_exclude : Option (List String)) : List StopRec :=
  (effective_stops stops has_catfield).filter
    (fun r => r.cat ∈ categories_of stops has_catfield cat_to_exclude)

/-- `cat_df = stops_df[stops_df[catfield[0]] == cat]`. -/
def cat_records (filtered : List StopRec) (cat : String) : List StopRec :=
  filtered.filter (fun r => r.cat = cat)

/-- `entry_bin`: bin of each of the category's records' entry times. -/
def cat_entry_bins (filtered : List StopRec) (cat : String) (start_analysis : Int)
    (bin_size_minutes : Nat) : List Int :=
  (cat_records filtered cat).map (fun r => bin_of_span r.intime start_analysis bin_size_minutes)

/-- `exit_bin`: bin of each of the category's records' exit times. -/
def cat_exit_bins (filtered : List StopRec) (cat : String) (start_analysis : Int)
    (bin_size_minutes : Nat) : List Int :=
  (cat_records filtered cat).map (fun r => bin_of_span r.outtime start_analysis bin_size_minutes)

/-- `entry_bin_frac`: the source computes this with `stops_df.apply`, i.e.
over the whole (category-unfiltered) filtered frame, and passes
`edge_bins=1` regardless of the `edge_bins` argument. -/
def stops_entry_fracs (filtered : List StopRec) (bin_size_minutes : Nat) : List ℚ :=
  filtered.map (fun r => in_bin_occ_frac r.intime bin_size_minutes 1)

/-- `exit_bin_frac`: likewise computed over the whole filtered frame with
`edge_bins=1` hardcoded. -/
def stops_exit_fracs (filtered : List StopRec) (bin_size_minutes : Nat) : List ℚ :=
  filtered.map (fun r => out_bin_occ_frac r.outtime bin_size_minutes 1)

/-- `list_of_inc_arrays`: for `i in range(num_stop_recs)`, the raw
increment array built from the category's `i`-th bins and the *whole
frame's* `i`-th fractions. -/
def cat_inc_arrays (filtered : List StopRec) (cat : String) (start_analysis : Int)
    (bin_size_minutes : Nat) : List (List ℚ) :=
  (List.range (cat_records filtered cat).length).map (fun i =>
    make_occ_incs ((cat_entry_bins filtered cat start_analysis bin_size_minutes).getD i 0)
      ((cat_exit_bins filtered cat start_analysis bin_size_minutes).getD i 0)
      ((stops_entry_fracs filtered bin_size_minutes).getD i 0)
      ((stops_exit_fracs filtered bin_size_minutes).getD i 0))

/-- `rec_type`: classification of each of the category's records against
the analysis window (bin-range comparison, §4.3). -/
def cat_rec_types (filtered : List StopRec) (cat : String) (start_analysis : Int)
    (bin_size_minutes : Nat) (num_bins : Int) : List String :=
  (cat_records filtered cat).map (fun r =>
    stoprec_analysis_rltnshp (bin_of_span r.intime start_analysis bin_size_minutes)
      (bin_of_span r.outtime start_analysis bin_size_minutes) num_bins)

/-- The clipped `(entry_bins, exit_bins, inc_arrays, rectype_counts)`
after `update_occ_incs` ran over the category's records. -/
def cat_clipped (filtered : List StopRec) (cat : String) (start_analysis : Int)
    (bin_size_minutes : Nat) (num_bins : Int) :
    List Int × List Int × List (List ℚ) × List (String × Nat) :=
  update_occ_incs (cat_entry_bins filtered cat start_analysis bin_size_minutes)
    (cat_exit_bins filtered cat start_analysis bin_size_minutes)
    (cat_inc_arrays filtered cat start_analysis bin_size_minutes)
    (cat_rec_types filtered cat start_analysis bin_size_minutes num_bins) num_bins

/-- One iteration of the category loop of `make_bydatetime`: occupancy
accumulation over a zero array, then `np.bincount` of the (now clipped)
entry and exit bins with `minlength=num_bins`, then `np.column_stack`. -/
def per_cat (filtered : List StopRec) (cat : String) (start_analysis : Int)
    (bin_size_minutes : Nat) (num_bins : Int) : Except PyErr OadTriple := do
  let clipped := cat_clipped filtered cat start_analysis bin_size_minutes num_bins
  let occ ← update_occ (List.replicate num_bins.toNat 0) clipped.1
    (cat_rec_types filtered cat start_analysis bin_size_minutes num_bins) clipped.2.2.1
  let arr ← np_bincount clipped.1 num_bins.toNat
  let dep ← np_bincount clipped.2.1 num_bins.toNat
  column_stack arr dep occ

/-- `bydatetime.make_bydatetime` (single category field, as the source
assumes): run the per-category loop over the run's categories, then — iff
a real category field was given — append the `'datetime'`-keyed totals
entry, the elementwise sum of the per-category matrices.  The `totals`
argument is accepted but, as in the source, never consulted. -/
def make_bydatetime (stops : List StopRec) (has_catfield : Bool)
    (start_analysis end_analysis : Int) (bin_size_minutes : Nat)
    (cat_to_exclude : Option (List String)) (totals : Nat) (edge_bins : Nat) :
    Except PyErr (List (String × OadTriple)) := do
  let num_bins := num_bins_calc end_analysis start_analysis bin_size_minutes
  let categories := categories_of stops has_catfield cat_to_exclude
  let filtered := filtered_stops stops has_catfield cat_to_exclude
  let do_totals := has_catfield
  let results ← categories.foldlM (fun res cat => do
    let t ← per_cat filtered cat start_analysis bin_size_minutes num_bins
    pure (dict_set res cat t)) []
  if do_totals then
    let total := results.foldl (fun acc kt => triple_add acc kt.2) (triple_zeros num_bins)
    pure (dict_set results "datetime" total)
  else
    pure results

end Hillmaker

deriving instance DecidableEq for Except

namespace Hillmaker

attribute [local semireducible] Rat.add Rat.mul Rat.inv Rat.sub Rat.ofScientific

/-! ## Helper lemmas -/

theorem sum_zipWith_add : ∀ (xs ys : List ℚ), xs.length = ys.length →
    (List.zipWith (· + ·) xs ys).sum = xs.sum + ys.sum
  | [], [], _ => by simp
  | x :: xs, y :: ys, h => by
      have ih := sum_zipWith_add xs ys (by simpa using h)
      simp [ih]; ring

theorem np_slice_add_inbounds (occ inc : List ℚ) (pos : Int) (h0 : 0 ≤ pos)
    (h1 : pos + inc.length ≤ occ.length) :
    np_slice_add occ pos inc = .ok (occ.take pos.toNat ++
      List.zipWith (· + ·) ((occ.drop pos.toNat).take inc.length) inc ++
      occ.drop (pos.toNat + inc.length)) := by
  have h2 : ¬ pos < 0 := by omega
  have h3 : ¬ pos + (inc.length : Int) < 0 := by omega
  have h4 : min pos (occ.length : Int) = pos := min_eq_left (by omega)
  have h5 : min (pos + (inc.length : Int)) (occ.length : Int) = pos + inc.length :=
    min_eq_left h1
  have h6 : (pos + (inc.length : Int) - pos).toNat = inc.length := by omega
  have h7 : pos.toNat + inc.length = (pos + (inc.length : Int)).toNat := by omega
  simp [np_slice_add, py_slice_bounds, h2, h3, h4, h5, h6, h7]

theorem np_slice_add_sum (occ inc : List ℚ) (pos : Int) (h0 : 0 ≤ pos)
    (h1 : pos + inc.length ≤ occ.length) :
    (np_slice_add occ pos inc).map List.sum = .ok (occ.sum + inc.sum) := by
  rw [np_slice_add_inbounds occ inc pos h0 h1]
  have hlen : ((occ.drop pos.toNat).take inc.length).length = inc.length := by
    simp [List.length_take, List.length_drop]; omega
  have hz := sum_zipWith_add ((occ.drop pos.toNat).take inc.length) inc hlen
  have hsplit1 : (occ.take pos.toNat).sum + (occ.drop pos.toNat).sum = occ.sum :=
    List.sum_take_add_sum_drop occ pos.toNat
  have hsplit2 : ((occ.drop pos.toNat).take inc.length).sum +
      ((occ.drop pos.toNat).drop inc.length).sum = (occ.drop pos.toNat).sum :=
    List.sum_take_add_sum_drop _ _
  have hdd : (occ.drop pos.toNat).drop inc.length = occ.drop (pos.toNat + inc.length) := by
    rw [List.drop_drop]
  have hsplit3 : ((occ.drop pos.toNat).take inc.length).sum +
      (occ.drop (pos.toNat + inc.length)).sum = (occ.drop pos.toNat).sum := by
    rw [← hdd]; exact hsplit2
  simp only [Except.map, Except.ok.injEq, List.sum_append]
  linarith [hz, hsplit1, hsplit3]

theorem py_slice_bounds_spec (n a b : Int) (hn : 0 ≤ n) :
    0 ≤ (py_slice_bounds n a b).1 ∧ (py_slice_bounds n a b).1 ≤ n ∧
    0 ≤ (py_slice_bounds n a b).2 ∧ (py_slice_bounds n a b).2 ≤ n := by
  unfold py_slice_bounds
  dsimp only
  refine ⟨?_, ?_, ?_, ?_⟩ <;> split_ifs <;> omega

theorem np_slice_add_length {occ inc r : List ℚ} {pos : Int}
    (h : np_slice_add occ pos inc = .ok r) : r.length = occ.length := by
  have hb := py_slice_bounds_spec (occ.length : Int) pos (pos + (inc.length : Int))
    (by positivity)
  simp only [np_slice_add] at h
  split_ifs at h with hk hm
  · simp only [Except.ok.injEq] at h
    rw [← h]
    simp only [List.length_append, List.length_take, List.length_drop, List.length_zipWith]
    omega
  · simp only [Except.ok.injEq] at h
    rw [← h]
    simp only [List.length_append, List.length_take, List.length_drop, List.length_map]
    omega

theorem except_bind_ok {α β : Type} {x : Except PyErr α} {f : α → Except PyErr β} {b : β}
    (h : x >>= f = .ok b) : ∃ a, x = .ok a ∧ f a = .ok b := by
  cases x with
  | error e => simp [Bind.bind, Except.bind] at h
  | ok a => exact ⟨a, rfl, by simpa [Bind.bind, Except.bind] using h⟩

theorem except_foldlM_inv {α β : Type} (P : β → Prop) (f : β → α → Except PyErr β)
    (hf : ∀ b a b', P b → f b a = .ok b' → P b') :
    ∀ (l : List α) (b b' : β), P b → l.foldlM f b = .ok b' → P b' := by
  intro l
  induction l with
  | nil =>
      intro b b' hb h
      simp only [List.foldlM_nil, pure, Except.pure, Except.ok.injEq] at h
      exact h ▸ hb
  | cons a l ih =>
      intro b b' hb h
      rw [List.foldlM_cons] at h
      obtain ⟨b2, hb2, hrest⟩ := except_bind_ok h
      exact ih b2 b' (hf b a b2 hb hb2) hrest

theorem update_occ_length {occ r : List ℚ} {eb : List Int} {rts : List String}
    {incs : List (List ℚ)} (h : update_occ occ eb rts incs = .ok r) :
    r.length = occ.length := by
  refine except_foldlM_inv (fun l => l.length = occ.length) _ ?_ _ occ r rfl h
  intro b i b' hb hstep
  by_cases hmem : rts.getD i "" ∈ (["inner", "left", "right", "outer"] : List String)
  · simp only [hmem, if_true] at hstep
    cases hadd : np_slice_add b (eb.getD i 0) (incs.getD i []) with
    | ok b2 =>
        rw [hadd] at hstep
        dsimp only at hstep
        simp only [Except.ok.injEq] at hstep
        rw [← hstep, np_slice_add_length hadd, hb]
    | error e =>
        rw [hadd] at hstep
        dsimp only at hstep
        split_ifs at hstep <;> simp at hstep
  · simp only [hmem, if_false] at hstep
    simp only [Except.ok.injEq] at hstep
    exact hstep ▸ hb

theorem update_occ_singleton (occ : List ℚ) (pos : Int) (rt : String) (inc : List ℚ) :
    update_occ occ [pos] [rt] [inc] =
      if rt ∈ (["inner", "left", "right", "outer"] : List String) then
        match np_slice_add occ pos inc with
        | .ok r => .ok r
        | .error e =>
            if e = .indexError ∨ e = .typeError then .error (.descriptive pos inc)
            else .error e
      else .ok occ := by
  have hr : List.range 1 = [0] := rfl
  by_cases hmem : rt ∈ (["inner", "left", "right", "outer"] : List String)
  · have hcond : rt = "inner" ∨ rt = "left" ∨ rt = "right" ∨ rt = "outer" := by
      simpa using hmem
    cases hadd : np_slice_add occ pos inc with
    | ok r =>
        simp [update_occ, hr, List.foldlM_cons, List.foldlM_nil, List.getD_cons_zero,
          hcond, hadd, Bind.bind, Except.bind, pure, Except.pure]
    | error e =>
        by_cases he : e = .indexError ∨ e = .typeError <;>
          simp [update_occ, hr, List.foldlM_cons, List.foldlM_nil, List.getD_cons_zero,
            hcond, hadd, he, Bind.bind, Except.bind, pure, Except.pure]
  · have hcond : ¬(rt = "inner" ∨ rt = "left" ∨ rt = "right" ∨ rt = "outer") := by
      simpa using hmem
    simp [update_occ, hr, List.foldlM_cons, List.foldlM_nil, List.getD_cons_zero,
      hcond, Bind.bind, Except.bind, pure, Except.pure]

theorem np_slice_add_overflow (occ inc : List ℚ) (pos : Int)
    (h0 : 0 ≤ pos) (h1 : pos < occ.length) (h2 : (occ.length : Int) < pos + inc.length) :
    np_slice_add occ pos inc = .error .valueError := by
  have hc2 : ¬ pos < 0 := by omega
  have hc3 : ¬ pos + (inc.length : Int) < 0 := by omega
  have h4 : min pos (occ.length : Int) = pos := min_eq_left (by omega)
  have h5 : min (pos + (inc.length : Int)) (occ.length : Int) = (occ.length : Int) :=
    min_eq_right (by omega)
  have hk : ((occ.length : Int) - pos).toNat ≠ inc.length := by omega
  have hm : inc.length ≠ 1 := by omega
  simp [np_slice_add, py_slice_bounds, hc2, hc3, h4, h5, hk, hm]

theorem range_map_getD {α : Type} (n i : Nat) (f : Nat → α) (d : α) (h : i < n) :
    ((List.range n).map f).getD i d = f i := by
  rw [List.getD_eq_getElem?_getD, List.getElem?_map, List.getElem?_range h]
  rfl

theorem map_getD_of_lt {α β : Type} (l : List α) (f : α → β) (i : Nat) (d0 : β) (d : α)
    (h : i < l.length) : (l.map f).getD i d0 = f (l.getD i d) := by
  rw [List.getD_eq_getElem?_getD, List.getElem?_map, List.getElem?_eq_getElem h,
    List.getD_eq_getElem?_getD, List.getElem?_eq_getElem h]
  rfl

theorem update_occ_incs_getD (ib ob : List Int) (incs : List (List ℚ)) (rts : List String)
    (nb : Int) (i : Nat) (h : i < ib.length) :
    (update_occ_incs ib ob incs rts nb).1.getD i 0 =
      (clip_one nb (ib.getD i 0) (ob.getD i 0) (incs.getD i []) (rts.getD i "")).1 ∧
    (update_occ_incs ib ob incs rts nb).2.1.getD i 0 =
      (clip_one nb (ib.getD i 0) (ob.getD i 0) (incs.getD i []) (rts.getD i "")).2.1 ∧
    (update_occ_incs ib ob incs rts nb).2.2.1.getD i [] =
      (clip_one nb (ib.getD i 0) (ob.getD i 0) (incs.getD i []) (rts.getD i "")).2.2 := by
  unfold update_occ_incs
  dsimp only
  refine ⟨?_, ?_, ?_⟩ <;> rw [List.map_map] <;>
    exact range_map_getD _ _ _ _ h

theorem clip_one_left (nb in_b out_b : Int) (inc : List ℚ)
    (h0 : in_b < 0) (h1 : (-in_b).toNat ≤ inc.length) :
    (clip_one nb in_b out_b inc "left").1 = 0 ∧
    ((clip_one nb in_b out_b inc "left").2.2).length = inc.length - (-in_b).toNat := by
  unfold clip_one
  rw [if_pos rfl]
  refine ⟨rfl, ?_⟩
  simp only [py_slice, py_slice_bounds, List.length_take, List.length_drop]
  split_ifs <;> omega

theorem clip_one_right (nb in_b out_b : Int) (inc : List ℚ)
    (h0 : nb - 1 < out_b) (h1 : (out_b - (nb - 1)).toNat ≤ inc.length) :
    (clip_one nb in_b out_b inc "right").2.1 = nb - 1 ∧
    ((clip_one nb in_b out_b inc "right").2.2).length =
      inc.length - (out_b - (nb - 1)).toNat := by
  unfold clip_one
  rw [if_neg (by decide), if_pos rfl]
  refine ⟨rfl, ?_⟩
  simp only [py_slice, py_slice_bounds, List.length_take, List.length_drop]
  split_ifs <;> omega

theorem clip_one_outer (nb in_b out_b : Int) (inc : List ℚ)
    (h0 : in_b < 0) (h2 : nb - 1 < out_b)
    (h1 : (-in_b).toNat + (out_b - (nb - 1)).toNat ≤ inc.length) :
    (clip_one nb in_b out_b inc "outer").1 = 0 ∧
    (clip_one nb in_b out_b inc "outer").2.1 = nb - 1 ∧
    ((clip_one nb in_b out_b inc "outer").2.2).length =
      inc.length - (-in_b).toNat - (out_b - (nb - 1)).toNat := by
  unfold clip_one
  rw [if_neg (by decide), if_neg (by decide), if_pos rfl]
  refine ⟨rfl, rfl, ?_⟩
  simp only [py_slice, py_slice_bounds, List.length_take, List.length_drop]
  split_ifs <;> omega

theorem np_bincount_ok_spec {xs : List Int} {ml : Nat} {l : List ℚ}
    (h : np_bincount xs ml = .ok l) :
    (∀ x ∈ xs, 0 ≤ x) ∧
    l = (List.range (max ml (xs.foldl (fun m x => max m (x.toNat + 1)) 0))).map
      (fun b : Nat => ((xs.filter (fun x => x = (b : Int))).length : ℚ)) := by
  unfold np_bincount at h
  split_ifs at h with hneg
  constructor
  · intro x hx
    by_contra hlt
    apply hneg
    simp only [List.any_eq_true, decide_eq_true_eq]
    exact ⟨x, hx, by omega⟩
  · simp only [Except.ok.injEq] at h
    exact h.symm

theorem foldl_max_init_le (xs : List Int) :
    ∀ a : Nat, a ≤ xs.foldl (fun m x => max m (x.toNat + 1)) a := by
  induction xs with
  | nil => intro a; simp
  | cons x xs ih =>
      intro a
      simp only [List.foldl_cons]
      exact le_trans (le_max_left _ _) (ih _)

theorem foldl_max_mem_le (xs : List Int) :
    ∀ (a : Nat) (x : Int), x ∈ xs →
      x.toNat + 1 ≤ xs.foldl (fun m y => max m (y.toNat + 1)) a := by
  induction xs with
  | nil => intro a x hx; simp at hx
  | cons y ys ih =>
      intro a x hx
      simp only [List.foldl_cons]
      rcases List.mem_cons.mp hx with h | h
      · subst h
        exact le_trans (le_max_right _ _) (foldl_max_init_le ys _)
      · exact ih _ x h

theorem np_bincount_len {xs : List Int} {ml : Nat} {l : List ℚ}
    (h : np_bincount xs ml = .ok l) :
    l.length = max ml (xs.foldl (fun m x => max m (x.toNat + 1)) 0) := by
  rw [(np_bincount_ok_spec h).2]
  simp

theorem np_bincount_all_lt {xs : List Int} {ml : Nat} {l : List ℚ}
    (h : np_bincount xs ml = .ok l) : ∀ x ∈ xs, x < (l.length : Int) := by
  intro x hx
  have h1 := foldl_max_mem_le xs 0 x hx
  have h2 := np_bincount_len h
  have h3 := (np_bincount_ok_spec h).1 x hx
  omega

theorem np_bincount_getD {xs : List Int} {ml : Nat} {l : List ℚ}
    (h : np_bincount xs ml = .ok l) (b : Nat) :
    l.getD b 0 = ((xs.filter (fun x => x = (b : Int))).length : ℚ) := by
  obtain ⟨hpos, hl⟩ := np_bincount_ok_spec h
  by_cases hb : b < l.length
  · have hb' : b < max ml (xs.foldl (fun m x => max m (x.toNat + 1)) 0) := by
      rw [np_bincount_len h] at hb; exact hb
    rw [hl]
    exact range_map_getD _ _ _ _ hb'
  · rw [List.getD_eq_default _ _ (by omega)]
    have hnil : xs.filter (fun x => x = (b : Int)) = [] := by
      rw [List.filter_eq_nil_iff]
      intro x hx
      have h1 := np_bincount_all_lt h x hx
      simp only [decide_eq_true_eq]
      omega
    rw [hnil]
    simp

theorem list_sum_map_add {α : Type} (l : List α) (f g : α → ℚ) :
    (l.map (fun a => f a + g a)).sum = (l.map f).sum + (l.map g).sum := by
  induction l with
  | nil => simp
  | cons x xs ih => simp [ih]; ring

theorem sum_indicator_zero (L : Nat) (x : Int) (h : (L : Int) ≤ x) :
    ((List.range L).map (fun b : Nat => if x = (b : Int) then (1 : ℚ) else 0)).sum = 0 := by
  induction L with
  | zero => simp
  | succ n ih =>
      rw [List.range_succ]
      simp only [List.map_append, List.sum_append, List.map_cons, List.map_nil,
        List.sum_cons, List.sum_nil]
      rw [ih (by omega), if_neg (by omega)]
      simp

theorem sum_indicator_one (L : Nat) (x : Int) (h0 : 0 ≤ x) (h1 : x < (L : Int)) :
    ((List.range L).map (fun b : Nat => if x = (b : Int) then (1 : ℚ) else 0)).sum = 1 := by
  induction L with
  | zero => exact absurd h1 (by omega)
  | succ n ih =>
      rw [List.range_succ]
      simp only [List.map_append, List.sum_append, List.map_cons, List.map_nil,
        List.sum_cons, List.sum_nil]
      by_cases hx : x = (n : Int)
      · rw [sum_indicator_zero n x (by omega), if_pos hx]
        simp
      · rw [ih (by omega), if_neg hx]
        simp

theorem bincount_counts_sum (xs : List Int) (L : Nat)
    (h : ∀ x ∈ xs, 0 ≤ x ∧ x < (L : Int)) :
    ((List.range L).map (fun b : Nat => ((xs.filter (fun y => y = (b : Int))).length : ℚ))).sum =
      (xs.length : ℚ) := by
  induction xs with
  | nil => simp
  | cons x xs ih =>
      have hfun : ∀ b ∈ List.range L,
          ((((x :: xs).filter (fun y => y = (b : Int))).length : ℚ)) =
          (if x = (b : Int) then (1 : ℚ) else 0) +
            ((xs.filter (fun y => y = (b : Int))).length : ℚ) := by
        intro b _
        by_cases hx : x = (b : Int)
        · simp [List.filter_cons, hx]
          ring
        · simp [List.filter_cons, hx]
      rw [List.map_congr_left hfun, list_sum_map_add]
      obtain ⟨hx0, hxL⟩ := h x (List.mem_cons_self x xs)
      rw [sum_indicator_one L x hx0 hxL, ih (fun y hy => h y (List.mem_cons_of_mem x hy))]
      simp only [List.length_cons]
      push_cast
      ring

theorem np_bincount_sum {xs : List Int} {ml : Nat} {l : List ℚ}
    (h : np_bincount xs ml = .ok l) : l.sum = (xs.length : ℚ) := by
  obtain ⟨hpos, hl⟩ := np_bincount_ok_spec h
  rw [hl]
  refine bincount_counts_sum xs _ (fun x hx => ⟨hpos x hx, ?_⟩)
  have h1 := np_bincount_all_lt h x hx
  have h2 := np_bincount_len h
  omega

theorem per_cat_ok_parts {F : List StopRec} {c : String} {s : Int} {bs : Nat} {nb : Int}
    {arr dep occ : List ℚ} (h : per_cat F c s bs nb = .ok (arr, dep, occ)) :
    update_occ (List.replicate nb.toNat 0) (cat_clipped F c s bs nb).1
      (cat_rec_types F c s bs nb) (cat_clipped F c s bs nb).2.2.1 = .ok occ ∧
    np_bincount (cat_clipped F c s bs nb).1 nb.toNat = .ok arr ∧
    np_bincount (cat_clipped F c s bs nb).2.1 nb.toNat = .ok dep ∧
    arr.length = dep.length ∧ dep.length = occ.length := by
  unfold per_cat at h
  obtain ⟨occ0, hocc, h2⟩ := except_bind_ok h
  obtain ⟨arr0, harr, h3⟩ := except_bind_ok h2
  obtain ⟨dep0, hdep, h4⟩ := except_bind_ok h3
  unfold column_stack at h4
  split_ifs at h4 with hlens
  simp only [Except.ok.injEq] at h4
  have e1 : arr0 = arr := congrArg (·.1) h4
  have e2 : dep0 = dep := congrArg (·.2.1) h4
  have e3 : occ0 = occ := congrArg (·.2.2) h4
  subst e1; subst e2; subst e3
  exact ⟨hocc, harr, hdep, hlens.1, hlens.2⟩

/-! ## Claim theorems -/

/-- Claim C1: accumulating a record of class `inner`, `left`, `right` or
`outer` (whose write fits the array) increases the total occupancy mass by
exactly the sum of its (possibly clipped) increment sequence, and
accumulating a `backwards` or `none` record leaves the occupancy array
unchanged everywhere (exactly, over ℚ). -/
theorem claim_C1_occ_mass (occ : List ℚ) (pos : Int) (rt : String) (inc : List ℚ) :
    (rt ∈ (["inner", "left", "right", "outer"] : List String) → 0 ≤ pos →
      pos + (inc.length : Int) ≤ occ.length →
      (update_occ occ [pos] [rt] [inc]).map List.sum = .ok (occ.sum + inc.sum)) ∧
    (rt = "backwards" ∨ rt = "none" → update_occ occ [pos] [rt] [inc] = .ok occ) := by
  constructor
  · intro hmem h0 h1
    rw [update_occ_singleton, if_pos hmem]
    have hs := np_slice_add_sum occ inc pos h0 h1
    cases hadd : np_slice_add occ pos inc with
    | ok r =>
        rw [hadd] at hs
        simp only [Except.map, Except.ok.injEq] at hs
        simp [Except.map, hs]
    | error e =>
        rw [hadd] at hs
        simp [Except.map] at hs
  · intro hbn
    have hnot : rt ∉ (["inner", "left", "right", "outer"] : List String) := by
      rcases hbn with h | h <;> subst h <;> decide
    rw [update_occ_singleton, if_neg hnot]

theorem claim_C1_witness :
    (update_occ [0, 0, 0] [1] ["inner"] [[2, 3]]).map List.sum =
      .ok (([0, 0, 0] : List ℚ).sum + ([2, 3] : List ℚ).sum) ∧
    update_occ [0, 0, 0] [1] ["backwards"] [[2, 3]] = .ok [0, 0, 0] :=
  ⟨(claim_C1_occ_mass [0, 0, 0] 1 "inner" [2, 3]).1 (by decide) (by decide) (by decide),
   (claim_C1_occ_mass [0, 0, 0] 1 "backwards" [2, 3]).2 (Or.inl rfl)⟩

/-- Claim C4, counterexample: when a record's increment sequence would
write past the end of the occupancy array, `update_occ` does not raise the
descriptive error the claim requires — numpy's slice assignment raises a
shape-mismatch `ValueError`, which the `except (IndexError, TypeError)`
handler does not catch. -/
theorem claim_C4_counterexample :
    update_occ [0, 0, 0] [1] ["inner"] [[1, 1, 1]] = .error .valueError ∧
    update_occ [0, 0, 0] [1] ["inner"] [[1, 1, 1]] ≠
      .error (.descriptive 1 [1, 1, 1]) := by
  have h : update_occ [0, 0, 0] [1] ["inner"] [[1, 1, 1]] = .error .valueError := by decide
  exact ⟨h, fun hc => by rw [h] at hc; exact absurd hc (by simp)⟩

/-- Claim C4 (amended): if a record's clipped increment sequence starts at
a nonnegative in-range position but would write past index `num_bins - 1`,
the accumulation raises an error — an unhandled shape-mismatch
`ValueError`, not the descriptive exception (whose handler only catches
`IndexError`/`TypeError`) — and no clamped or truncated array is
produced. -/
theorem claim_C4_amended (occ inc : List ℚ) (pos : Int) (rt : String)
    (hmem : rt ∈ (["inner", "left", "right", "outer"] : List String))
    (h0 : 0 ≤ pos) (h1 : pos < occ.length) (h2 : (occ.length : Int) < pos + inc.length) :
    update_occ occ [pos] [rt] [inc] = .error .valueError := by
  rw [update_occ_singleton, if_pos hmem, np_slice_add_overflow occ inc pos h0 h1 h2]
  simp

theorem claim_C4_witness : update_occ [0, 0] [0] ["left"] [[5, 6, 7]] = .error .valueError :=
  claim_C4_amended [0, 0] [5, 6, 7] 0 "left" (by decide) (by decide) (by decide) (by decide)

/-- Claim C2, the code evaluated at a failing input: with bin size 30 and
an entry timestamp at minute 45 of the hour (00:45:00), the entry fraction
is `45*60/1800 = 3/2` — the code divides the seconds elapsed within the
*hour* (not within the bin) by the bin length, contradicting both the
claim's formula (which gives `1/2`) and the function's own docstring range
`[0.0, 1.0]`. -/
theorem claim_C2_frac_eval :
    in_bin_occ_frac 2700 30 1 = 3 / 2 ∧
    ¬ in_bin_occ_frac 2700 30 1 ≤ 1 ∧
    (((2700 : Int).emod (30 * 60) : ℚ)) / ((30 : ℚ) * 60) = 1 / 2 :=
  ⟨by decide, by decide, by decide⟩

/-- Claim C6, the code evaluated at a failing input: the helper functions
do return 1.0 when called with `edge_bins = 2`, but `make_bydatetime`
hardcodes `edge_bins=1` in its `apply` calls, so a run with
`edge_bins = 2` still produces a fractional increment (here `1/2 ≠ 1`) in
the occupancy array. -/
theorem claim_C6_edge_bins_eval :
    (∀ (t : Int) (bs : Nat), in_bin_occ_frac t bs 2 = 1) ∧
    (∀ (t : Int) (bs : Nat), out_bin_occ_frac t bs 2 = 1) ∧
    make_bydatetime [⟨1800, 7200, "A"⟩] true 0 14400 60 none 1 2 =
      .ok [("A", ([1, 0, 0, 0, 0], [0, 0, 1, 0, 0], [1/2, 1, 1, 0, 0])),
           ("datetime", ([1, 0, 0, 0, 0], [0, 0, 1, 0, 0], [1/2, 1, 1, 0, 0]))] ∧
    (1 : ℚ) / 2 ≠ 1 :=
  ⟨fun _ _ => rfl, fun _ _ => rfl, by decide, by decide⟩

/-- Claim C10: the engine is deterministic — the same stop records,
window, bin size, category configuration and edge policy give the same
result, with identical arrays under every key. -/
theorem claim_C10_deterministic (stops : List StopRec) (hc : Bool) (s e : Int)
    (bs : Nat) (ex : Option (List String)) (tot eb : Nat) :
    make_bydatetime stops hc s e bs ex tot eb = make_bydatetime stops hc s e bs ex tot eb ∧
    ∀ res res', make_bydatetime stops hc s e bs ex tot eb = .ok res →
      make_bydatetime stops hc s e bs ex tot eb = .ok res' →
      ∀ k, alist_get res k = alist_get res' k := by
  refine ⟨rfl, fun res res' h1 h2 k => ?_⟩
  rw [h1] at h2
  simp only [Except.ok.injEq] at h2
  rw [h2]

/-- Claim C3, counterexample: on an input containing a record entirely
after the analysis window (class `none`, bins not clipped), the run does
not return arrival/departure arrays at all — `np.bincount` produces an
array longer than `num_bins` and `np.column_stack` raises `ValueError`. -/
theorem claim_C3_counterexample :
    make_bydatetime [⟨36000, 39600, "A"⟩] true 0 14400 60 none 1 1 =
      .error .valueError := by
  decide

/-- Claim C3 (amended): on every input on which the per-category
computation completes, the arrivals array entry at bin `b` is the number
of records whose (possibly clipped) entry bin is `b` (and likewise for
departures and exit bins), zero at every other index, and the array
totals equal the number of records whose (possibly clipped) entry/exit
bin lies in `[0, num_bins-1]`. -/
theorem claim_C3_amended (F : List StopRec) (c : String) (s : Int) (bs : Nat) (nb : Int)
    (arr dep occ : List ℚ) (h : per_cat F c s bs nb = .ok (arr, dep, occ)) :
    (∀ b : Nat, arr.getD b 0 =
      (((cat_clipped F c s bs nb).1.filter (fun x => x = (b : Int))).length : ℚ)) ∧
    (∀ b : Nat, dep.getD b 0 =
      (((cat_clipped F c s bs nb).2.1.filter (fun x => x = (b : Int))).length : ℚ)) ∧
    arr.sum = (((cat_clipped F c s bs nb).1.filter
      (fun x => 0 ≤ x ∧ x ≤ nb - 1)).length : ℚ) ∧
    dep.sum = (((cat_clipped F c s bs nb).2.1.filter
      (fun x => 0 ≤ x ∧ x ≤ nb - 1)).length : ℚ) := by
  obtain ⟨hocc, harr, hdep, hl1, hl2⟩ := per_cat_ok_parts h
  have hoccl : occ.length = nb.toNat := by
    rw [update_occ_length hocc, List.length_replicate]
  refine ⟨fun b => np_bincount_getD harr b, fun b => np_bincount_getD hdep b, ?_, ?_⟩
  · have hfa : (cat_clipped F c s bs nb).1.filter (fun x => 0 ≤ x ∧ x ≤ nb - 1) =
        (cat_clipped F c s bs nb).1 := by
      refine List.filter_eq_self.mpr (fun x hx => ?_)
      have h1 := (np_bincount_ok_spec harr).1 x hx
      have h2 := np_bincount_all_lt harr x hx
      simp only [decide_eq_true_eq]
      omega
    rw [hfa, np_bincount_sum harr]
  · have hfd : (cat_clipped F c s bs nb).2.1.filter (fun x => 0 ≤ x ∧ x ≤ nb - 1) =
        (cat_clipped F c s bs nb).2.1 := by
      refine List.filter_eq_self.mpr (fun x hx => ?_)
      have h1 := (np_bincount_ok_spec hdep).1 x hx
      have h2 := np_bincount_all_lt hdep x hx
      simp only [decide_eq_true_eq]
      omega
    rw [hfd, np_bincount_sum hdep]

theorem claim_C3_witness :
    ([(1 : ℚ), 0, 0, 0, 0]).sum =
      (((cat_clipped [⟨1800, 3600, "total"⟩] "total" 0 60 5).1.filter
        (fun x => 0 ≤ x ∧ x ≤ 5 - 1)).length : ℚ) :=
  (claim_C3_amended [⟨1800, 3600, "total"⟩] "total" 0 60 5
    [1, 0, 0, 0, 0] [0, 1, 0, 0, 0] [1/2, 1, 0, 0, 0] (by decide)).2.2.1

theorem mem_dict_set {α : Type} (d : List (String × α)) (k : String) (v : α)
    (p : String × α) (h : p ∈ dict_set d k v) : p ∈ d ∨ p = (k, v) := by
  induction d with
  | nil =>
      right
      simpa [dict_set] using h
  | cons q d ih =>
      unfold dict_set at h
      split_ifs at h with hq
      · rcases List.mem_cons.mp h with h' | h'
        · right; exact h'
        · left; exact List.mem_cons_of_mem _ h'
      · rcases List.mem_cons.mp h with h' | h'
        · left; exact h' ▸ List.mem_cons_self _ _
        · rcases ih h' with h'' | h''
          · left; exact List.mem_cons_of_mem _ h''
          · right; exact h''

theorem results_fold_mem (F : List StopRec) (s : Int) (bs : Nat) (nb : Int)
    (P : String × OadTriple → Prop)
    (hstep : ∀ c t, per_cat F c s bs nb = .ok t → P (c, t)) :
    ∀ (cats : List String) (acc res : List (String × OadTriple)),
      (∀ p ∈ acc, P p) →
      cats.foldlM (fun r cat => do
        let t ← per_cat F cat s bs nb
        pure (dict_set r cat t)) acc = .ok res →
      ∀ p ∈ res, P p := by
  intro cats
  induction cats with
  | nil =>
      intro acc res hacc h
      simp only [List.foldlM_nil, pure, Except.pure, Except.ok.injEq] at h
      exact h ▸ hacc
  | cons c cats ih =>
      intro acc res hacc h
      rw [List.foldlM_cons] at h
      obtain ⟨acc', hstep1, hrest⟩ := except_bind_ok h
      obtain ⟨t, ht, hpure⟩ := except_bind_ok hstep1
      simp only [pure, Except.pure, Except.ok.injEq] at hpure
      refine ih acc' res (fun p hp => ?_) hrest
      rw [← hpure] at hp
      rcases mem_dict_set _ _ _ _ hp with h' | h'
      · exact hacc p h'
      · exact h' ▸ hstep c t ht

theorem per_cat_ok_lengths {F : List StopRec} {c : String} {s : Int} {bs : Nat} {nb : Int}
    {t : OadTriple} (h : per_cat F c s bs nb = .ok t) :
    t.1.length = nb.toNat ∧ t.2.1.length = nb.toNat ∧ t.2.2.length = nb.toNat := by
  obtain ⟨arr, dep, occ⟩ := t
  obtain ⟨hocc, harr, hdep, hl1, hl2⟩ := per_cat_ok_parts h
  have hoccl : occ.length = nb.toNat := by
    rw [update_occ_length hocc, List.length_replicate]
  refine ⟨?_, ?_, ?_⟩ <;> dsimp only <;> omega

theorem triple_add_lengths {x y : OadTriple} {n : Nat}
    (hx : x.1.length = n ∧ x.2.1.length = n ∧ x.2.2.length = n)
    (hy : y.1.length = n ∧ y.2.1.length = n ∧ y.2.2.length = n) :
    (triple_add x y).1.length = n ∧ (triple_add x y).2.1.length = n ∧
      (triple_add x y).2.2.length = n := by
  obtain ⟨hx1, hx2, hx3⟩ := hx
  obtain ⟨hy1, hy2, hy3⟩ := hy
  unfold triple_add
  refine ⟨?_, ?_, ?_⟩ <;> simp [List.length_zipWith] <;> omega

theorem triple_zeros_lengths (nb : Int) :
    (triple_zeros nb).1.length = nb.toNat ∧ (triple_zeros nb).2.1.length = nb.toNat ∧
      (triple_zeros nb).2.2.length = nb.toNat := by
  unfold triple_zeros
  simp

theorem totals_fold_lengths (n : Nat) :
    ∀ (l : List (String × OadTriple)) (acc : OadTriple),
      (∀ p ∈ l, p.2.1.length = n ∧ p.2.2.1.length = n ∧ p.2.2.2.length = n) →
      acc.1.length = n ∧ acc.2.1.length = n ∧ acc.2.2.length = n →
      (l.foldl (fun a kt => triple_add a kt.2) acc).1.length = n ∧
        (l.foldl (fun a kt => triple_add a kt.2) acc).2.1.length = n ∧
        (l.foldl (fun a kt => triple_add a kt.2) acc).2.2.length = n := by
  intro l
  induction l with
  | nil => intro acc _ hacc; simpa using hacc
  | cons p l ih =>
      intro acc hl hacc
      simp only [List.foldl_cons]
      refine ih _ (fun q hq => hl q (List.mem_cons_of_mem p hq)) ?_
      exact triple_add_lengths hacc (hl p (List.mem_cons_self p l))

/-- Claim C5, counterexample: a record lying entirely before the analysis
window (class `none`) keeps its negative bins; `np.bincount` then raises
`ValueError`, so for this input no mapping is returned at all — in
particular no per-category triple of length `num_bins`. -/
theorem claim_C5_counterexample :
    make_bydatetime [⟨-7200, -3600, "x"⟩] false 0 14400 60 none 1 1 =
      .error .valueError := by
  decide

/-- Claim C5 (amended): `num_bins` always equals
`floor((end - start) / bin_size) + 1`, and on every input on which
`make_bydatetime` returns a mapping, every entry of that mapping — the
per-category entries and the totals entry alike — carries three arrays
(arrivals, departures, occupancy) of length exactly `num_bins`. -/
theorem claim_C5_amended (stops : List StopRec) (hc : Bool) (s e : Int) (bs : Nat)
    (ex : Option (List String)) (tot eb : Nat) :
    num_bins_calc e s bs = (e - s).fdiv ((bs : Int) * 60) + 1 ∧
    (∀ res, make_bydatetime stops hc s e bs ex tot eb = .ok res →
      ∀ kt ∈ res, kt.2.1.length = (num_bins_calc e s bs).toNat ∧
        kt.2.2.1.length = (num_bins_calc e s bs).toNat ∧
        kt.2.2.2.length = (num_bins_calc e s bs).toNat) := by
  refine ⟨rfl, fun res h kt hkt => ?_⟩
  unfold make_bydatetime at h
  obtain ⟨results, hfold, hrest⟩ := except_bind_ok h
  have hres : ∀ p ∈ results, p.2.1.length = (num_bins_calc e s bs).toNat ∧
      p.2.2.1.length = (num_bins_calc e s bs).toNat ∧
      p.2.2.2.length = (num_bins_calc e s bs).toNat :=
    results_fold_mem _ _ _ _ _ (fun c t ht => per_cat_ok_lengths ht) _ _ _
      (by simp) hfold
  by_cases hhc : hc = true
  · rw [if_pos hhc] at hrest
    simp only [pure, Except.pure, Except.ok.injEq] at hrest
    rw [← hrest] at hkt
    rcases mem_dict_set _ _ _ _ hkt with h' | h'
    · exact hres kt h'
    · rw [h']
      exact totals_fold_lengths _ results _ hres (triple_zeros_lengths _)
  · rw [if_neg hhc] at hrest
    simp only [pure, Except.pure, Except.ok.injEq] at hrest
    exact hres kt (hrest ▸ hkt)

theorem claim_C5_witness :
    (("total", (([1, 0, 0, 0, 0], [0, 1, 0, 0, 0], [1/2, 1, 0, 0, 0]) : OadTriple)) :
        String × OadTriple).2.1.length = (num_bins_calc 14400 0 60).toNat :=
  ((claim_C5_amended [⟨1800, 3600, "x"⟩] false 0 14400 60 none 1 1).2
    [("total", ([1, 0, 0, 0, 0], [0, 1, 0, 0, 0], [1/2, 1, 0, 0, 0]))]
    (by decide) _ (by decide)).1

theorem uniques_aux_mem (xs : List String) :
    ∀ (acc : List String) (y : String),
      y ∈ xs.foldl (fun acc x => if x ∈ acc then acc else acc ++ [x]) acc →
      y ∈ acc ∨ y ∈ xs := by
  induction xs with
  | nil => intro acc y h; left; simpa using h
  | cons x xs ih =>
      intro acc y h
      simp only [List.foldl_cons] at h
      rcases ih _ y h with h' | h'
      · by_cases hx : x ∈ acc
        · rw [if_pos hx] at h'
          left; exact h'
        · rw [if_neg hx] at h'
          rcases List.mem_append.mp h' with h'' | h''
          · left; exact h''
          · right
            simp only [List.mem_singleton] at h''
            exact h'' ▸ List.mem_cons_self _ _
      · right; exact List.mem_cons_of_mem _ h'

theorem mem_uniques {xs : List String} {y : String} (h : y ∈ uniques xs) : y ∈ xs := by
  rcases uniques_aux_mem xs [] y h with h' | h'
  · simp at h'
  · exact h'

theorem uniques_aux_nodup (xs : List String) :
    ∀ acc : List String, acc.Nodup →
      (xs.foldl (fun acc x => if x ∈ acc then acc else acc ++ [x]) acc).Nodup := by
  induction xs with
  | nil => intro acc h; simpa using h
  | cons x xs ih =>
      intro acc h
      simp only [List.foldl_cons]
      by_cases hx : x ∈ acc
      · rw [if_pos hx]; exact ih _ h
      · rw [if_neg hx]
        refine ih _ ?_
        simp [List.nodup_append, h, hx]

theorem uniques_nodup (xs : List String) : (uniques xs).Nodup :=
  uniques_aux_nodup xs [] (by simp)

theorem categories_of_nodup (stops : List StopRec) (hc : Bool)
    (ex : Option (List String)) : (categories_of stops hc ex).Nodup := by
  unfold categories_of
  cases ex with
  | none => exact uniques_nodup _
  | some excl => exact (uniques_nodup _).filter _

theorem dict_set_append {α : Type} (d : List (String × α)) (k : String) (v : α)
    (h : ∀ p ∈ d, p.1 ≠ k) : dict_set d k v = d ++ [(k, v)] := by
  induction d with
  | nil => rfl
  | cons q d ih =>
      unfold dict_set
      rw [if_neg (h q (List.mem_cons_self q d)), ih (fun p hp => h p (List.mem_cons_of_mem q hp))]
      simp

theorem results_fold_keys (F : List StopRec) (s : Int) (bs : Nat) (nb : Int) :
    ∀ (cats : List String) (acc res : List (String × OadTriple)),
      cats.Nodup → (∀ c ∈ cats, ∀ p ∈ acc, p.1 ≠ c) →
      cats.foldlM (fun r cat => do
        let t ← per_cat F cat s bs nb
        pure (dict_set r cat t)) acc = .ok res →
      res.map Prod.fst = acc.map Prod.fst ++ cats := by
  intro cats
  induction cats with
  | nil =>
      intro acc res _ _ h
      simp only [List.foldlM_nil, pure, Except.pure, Except.ok.injEq] at h
      rw [← h]
      simp
  | cons c cats ih =>
      intro acc res hnd hdis h
      rw [List.foldlM_cons] at h
      obtain ⟨acc', h1, hrest⟩ := except_bind_ok h
      obtain ⟨t, ht, hpure⟩ := except_bind_ok h1
      simp only [pure, Except.pure, Except.ok.injEq] at hpure
      have hset : dict_set acc c t = acc ++ [(c, t)] :=
        dict_set_append acc c t (fun p hp => hdis c (List.mem_cons_self c cats) p hp)
      have hdis' : ∀ c' ∈ cats, ∀ p ∈ acc', p.1 ≠ c' := by
        intro c' hc' p hp
        rw [← hpure, hset] at hp
        rcases List.mem_append.mp hp with h' | h'
        · exact hdis c' (List.mem_cons_of_mem c hc') p h'
        · simp only [List.mem_singleton] at h'
          rw [h']
          intro hcc
          have hcc' : c = c' := hcc
          refine (List.nodup_cons.mp hnd).1 ?_
          rw [hcc']
          exact hc'
      have hres := ih acc' res (List.nodup_cons.mp hnd).2 hdis' hrest
      rw [hres, ← hpure, hset]
      simp

/-- Claim C8, counterexample: the totals entry is keyed `'datetime'`, and
that key is *not* guaranteed distinct from real category values — with a
single real category literally named `"datetime"`, the totals assignment
overwrites the category's own entry, so the result holds one entry, not
the category entry plus one additional totals entry. -/
theorem claim_C8_counterexample :
    make_bydatetime [⟨1800, 3600, "datetime"⟩] true 0 14400 60 none 1 1 =
      .ok [("datetime", ([1, 0, 0, 0, 0], [0, 1, 0, 0, 0], [1/2, 1, 0, 0, 0]))] ∧
    (categories_of [⟨1800, 3600, "datetime"⟩] true none = ["datetime"]) := by
  exact ⟨by decide, by decide⟩

/-- Claim C8 (amended): when a real category field is analyzed and no
category value equals the reserved key `'datetime'`, the result is the
per-category entries followed by exactly one additional `'datetime'`-keyed
totals entry equal to the elementwise sum of all per-category triples;
with a category literally named `'datetime'` the totals entry instead
overwrites that category's entry.  In the implicit no-category mode no
totals entry is produced. -/
theorem claim_C8_totals (stops : List StopRec) (s e : Int) (bs : Nat)
    (ex : Option (List String)) (tot eb : Nat) :
    (∀ res, make_bydatetime stops true s e bs ex tot eb = .ok res →
      "datetime" ∉ categories_of stops true ex →
      res.map Prod.fst = categories_of stops true ex ++ ["datetime"] ∧
      res.getLast? = some ("datetime",
        res.dropLast.foldl (fun acc kt => triple_add acc kt.2)
          (triple_zeros (num_bins_calc e s bs)))) ∧
    (∀ res, make_bydatetime stops false s e bs ex tot eb = .ok res →
      "datetime" ∉ res.map Prod.fst) := by
  constructor
  · intro res h hdt
    unfold make_bydatetime at h
    obtain ⟨results, hfold, hrest⟩ := except_bind_ok h
    rw [if_pos rfl] at hrest
    simp only [pure, Except.pure, Except.ok.injEq] at hrest
    have hkeys := results_fold_keys _ _ _ _ (categories_of stops true ex) [] results
      (categories_of_nodup stops true ex) (by simp) hfold
    simp only [List.map_nil, List.nil_append] at hkeys
    have hnokey : ∀ p ∈ results, p.1 ≠ "datetime" := by
      intro p hp heq
      apply hdt
      rw [← hkeys]
      exact heq ▸ List.mem_map_of_mem Prod.fst hp
    have hset := dict_set_append results "datetime"
      (results.foldl (fun acc kt => triple_add acc kt.2)
        (triple_zeros (num_bins_calc e s bs))) hnokey
    rw [← hrest, hset]
    constructor
    · simp [hkeys]
    · rw [List.getLast?_concat, List.dropLast_concat]
  · intro res h
    unfold make_bydatetime at h
    obtain ⟨results, hfold, hrest⟩ := except_bind_ok h
    rw [if_neg (by simp)] at hrest
    simp only [pure, Except.pure, Except.ok.injEq] at hrest
    have hkeys := results_fold_keys _ _ _ _ (categories_of stops false ex) [] results
      (categories_of_nodup stops false ex) (by simp) hfold
    simp only [List.map_nil, List.nil_append] at hkeys
    intro hmem
    rw [← hrest, hkeys] at hmem
    have hmem2 : "datetime" ∈ uniques ((effective_stops stops false).map (·.cat)) := by
      unfold categories_of at hmem
      cases ex with
      | none => exact hmem
      | some excl => exact List.mem_of_mem_filter hmem
    have hmem3 := mem_uniques hmem2
    simp only [List.mem_map] at hmem3
    obtain ⟨r, hr, hcat⟩ := hmem3
    unfold effective_stops at hr
    simp only [Bool.false_eq_true, if_false, List.mem_map] at hr
    obtain ⟨r0, _, hr0⟩ := hr
    rw [← hr0] at hcat
    exact absurd (show ("total" : String) = "datetime" from hcat) (by decide)

theorem claim_C8_witness :
    ([("A", (([1, 0, 0, 0, 0], [0, 1, 0, 0, 0], [1/2, 1, 0, 0, 0]) : OadTriple)),
      ("datetime", ([1, 0, 0, 0, 0], [0, 1, 0, 0, 0], [1/2, 1, 0, 0, 0]))].map Prod.fst) =
      categories_of [⟨1800, 3600, "A"⟩] true none ++ ["datetime"] :=
  ((claim_C8_totals [⟨1800, 3600, "A"⟩] 0 14400 60 none 1 1).1
    [("A", ([1, 0, 0, 0, 0], [0, 1, 0, 0, 0], [1/2, 1, 0, 0, 0])),
     ("datetime", ([1, 0, 0, 0, 0], [0, 1, 0, 0, 0], [1/2, 1, 0, 0, 0]))]
    (by decide) (by decide)).1

/-- Claim C7: clipping is length-consistent — for a `left` record the
clipped increment array loses its first `-entry_bin` elements and the
effective entry bin becomes 0; for a `right` record it loses its last
`exit_bin - (num_bins-1)` elements and the effective exit bin becomes
`num_bins - 1`; an `outer` record undergoes both drops simultaneously. -/
theorem claim_C7_clip_lengths (ib ob : List Int) (incs : List (List ℚ)) (rts : List String)
    (nb : Int) (i : Nat) (h : i < ib.length) :
    (rts.getD i "" = "left" → ib.getD i 0 < 0 →
      (-(ib.getD i 0)).toNat ≤ (incs.getD i []).length →
      (update_occ_incs ib ob incs rts nb).1.getD i 0 = 0 ∧
      ((update_occ_incs ib ob incs rts nb).2.2.1.getD i []).length =
        (incs.getD i []).length - (-(ib.getD i 0)).toNat) ∧
    (rts.getD i "" = "right" → nb - 1 < ob.getD i 0 →
      (ob.getD i 0 - (nb - 1)).toNat ≤ (incs.getD i []).length →
      (update_occ_incs ib ob incs rts nb).2.1.getD i 0 = nb - 1 ∧
      ((update_occ_incs ib ob incs rts nb).2.2.1.getD i []).length =
        (incs.getD i []).length - (ob.getD i 0 - (nb - 1)).toNat) ∧
    (rts.getD i "" = "outer" → ib.getD i 0 < 0 → nb - 1 < ob.getD i 0 →
      (-(ib.getD i 0)).toNat + (ob.getD i 0 - (nb - 1)).toNat ≤ (incs.getD i []).length →
      (update_occ_incs ib ob incs rts nb).1.getD i 0 = 0 ∧
      (update_occ_incs ib ob incs rts nb).2.1.getD i 0 = nb - 1 ∧
      ((update_occ_incs ib ob incs rts nb).2.2.1.getD i []).length =
        (incs.getD i []).length - (-(ib.getD i 0)).toNat - (ob.getD i 0 - (nb - 1)).toNat) := by
  obtain ⟨g1, g2, g3⟩ := update_occ_incs_getD ib ob incs rts nb i h
  refine ⟨fun hrt h0 h1 => ?_, fun hrt h0 h1 => ?_, fun hrt h0 h2 h1 => ?_⟩
  · rw [g1, g3, hrt]
    exact clip_one_left nb _ _ _ h0 h1
  · rw [g2, g3, hrt]
    exact clip_one_right nb _ _ _ h0 h1
  · rw [g1, g2, g3, hrt]
    exact clip_one_outer nb _ _ _ h0 h2 h1

theorem claim_C7_witness :
    (update_occ_incs [-2] [3] [[1/2, 1, 1, 1, 1, 3/4]] ["left"] 5).1.getD 0 0 = 0 ∧
    ((update_occ_incs [-2] [3] [[1/2, 1, 1, 1, 1, 3/4]] ["left"] 5).2.2.1.getD 0 []).length =
      (([[1/2, 1, 1, 1, 1, 3/4]] : List (List ℚ)).getD 0 []).length -
        (-(([-2] : List Int).getD 0 0)).toNat :=
  (claim_C7_clip_lengths [-2] [3] [[1/2, 1, 1, 1, 1, 3/4]] ["left"] 5 0 (by decide)).1
    (by decide) (by decide) (by decide)

/-- Claim C9: inside `make_bydatetime` the per-category entry/exit bins
come from the category-filtered records, but the fraction arrays are
computed positionally over the whole (category-unfiltered) stops frame;
with at most one distinct category value every record is paired with its
own fractions, while with two or more categories the `i`-th record of a
category is paired with the fractions of the `i`-th record of the whole
frame, which can belong to a different record. -/
theorem claim_C9_frac_mismatch :
    (∀ (F : List StopRec) (c : String) (s : Int) (bs : Nat) (i : Nat),
      i < (cat_records F c).length →
      (cat_inc_arrays F c s bs).getD i [] =
        make_occ_incs ((cat_entry_bins F c s bs).getD i 0)
          ((cat_exit_bins F c s bs).getD i 0)
          ((stops_entry_fracs F bs).getD i 0)
          ((stops_exit_fracs F bs).getD i 0)) ∧
    (∀ (F : List StopRec) (c : String) (bs : Nat) (i : Nat),
      (∀ r ∈ F, r.cat = c) → i < F.length →
      (stops_entry_fracs F bs).getD i 0 =
        in_bin_occ_frac (((cat_records F c).getD i ⟨0, 0, ""⟩).intime) bs 1 ∧
      (stops_exit_fracs F bs).getD i 0 =
        out_bin_occ_frac (((cat_records F c).getD i ⟨0, 0, ""⟩).outtime) bs 1) ∧
    (cat_inc_arrays [⟨1800, 3600, "A"⟩, ⟨900, 3600, "B"⟩] "B" 0 60 = [[1/2, 1]] ∧
      in_bin_occ_frac 900 60 1 = 1/4 ∧ ((1 : ℚ)/2) ≠ 1/4) := by
  refine ⟨fun F c s bs i h => ?_, fun F c bs i hall h => ?_, by decide, by decide, by decide⟩
  · exact range_map_getD _ _ _ _ h
  · have hcr : cat_records F c = F := by
      unfold cat_records
      exact List.filter_eq_self.mpr (fun a ha => by simp [hall a ha])
    rw [hcr]
    exact ⟨map_getD_of_lt F _ i 0 ⟨0, 0, ""⟩ h, map_getD_of_lt F _ i 0 ⟨0, 0, ""⟩ h⟩

theorem claim_C9_witness :
    (cat_inc_arrays [⟨1800, 3600, "A"⟩, ⟨900, 3600, "B"⟩] "B" 0 60).getD 0 [] =
      make_occ_incs
        ((cat_entry_bins [⟨1800, 3600, "A"⟩, ⟨900, 3600, "B"⟩] "B" 0 60).getD 0 0)
        ((cat_exit_bins [⟨1800, 3600, "A"⟩, ⟨900, 3600, "B"⟩] "B" 0 60).getD 0 0)
        ((stops_entry_fracs [⟨1800, 3600, "A"⟩, ⟨900, 3600, "B"⟩] 60).getD 0 0)
        ((stops_exit_fracs [⟨1800, 3600, "A"⟩, ⟨900, 3600, "B"⟩] 60).getD 0 0) :=
  claim_C9_frac_mismatch.1 [⟨1800, 3600, "A"⟩, ⟨900, 3600, "B"⟩] "B" 0 60 0 (by decide)

theorem claim_C10_witness :
    alist_get [("total", (([1, 0, 0, 0, 0], [0, 1, 0, 0, 0],
      [1/2, 1, 0, 0, 0]) : OadTriple))] "total" =
    alist_get [("total", (([1, 0, 0, 0, 0], [0, 1, 0, 0, 0],
      [1/2, 1, 0, 0, 0]) : OadTriple))] "total" :=
  (claim_C10_deterministic [⟨1800, 3600, "x"⟩] false 0 14400 60 none 1 1).2 _ _
    (by decide) (by decide) "total"

end Hillmaker
